import Mathlib

/-!
Shallow embedding of the text-normalization core of `src/main.py`
(`END_LETTER_RE`, `char_to_ascii`, `remove_combining`,
`normalize_channel_name`).  Strings are modelled as `List Char`
(Python iterates strings by Unicode scalar value).  The Unicode
character database consumed through Python's `unicodedata` module is
modelled as an explicit parameter `UnicodeData`; `unicodedata.name`
raising `ValueError` is modelled as an `Option` result.
-/

/-- CPython's `Py_UNICODE_ISSPACE` predicate: the exact character set that
`str.isspace`, `str.strip()` and the `re` pattern `\s` (on `str` patterns)
use.  The set is fixed by CPython: `0x09`–`0x0D`, `0x1C`–`0x1F`, `0x20`,
`0x85`, `0xA0`, `0x1680`, `0x2000`–`0x200A`, `0x2028`, `0x2029`, `0x202F`,
`0x205F`, `0x3000`. -/
def pyIsSpace (c : Char) : Bool :=
  let n := c.toNat
  (9 ≤ n && n ≤ 13) || (28 ≤ n && n ≤ 32) || n == 0x85 || n == 0xA0 ||
  n == 0x1680 || (0x2000 ≤ n && n ≤ 0x200A) || n == 0x2028 || n == 0x2029 ||
  n == 0x202F || n == 0x205F || n == 0x3000

/-- `str.lower` restricted to ASCII characters (in the source it is only ever
applied to strings all of whose characters are below code point 128, where
Python's Unicode lowercasing coincides with the A–Z → a–z map). -/
def asciiLower (c : Char) : Char :=
  if 65 ≤ c.toNat && c.toNat ≤ 90 then Char.ofNat (c.toNat + 32) else c

/-- `str.upper` restricted to ASCII (only applied to a single letter A–Z). -/
def asciiUpper (c : Char) : Char :=
  if 97 ≤ c.toNat && c.toNat ≤ 122 then Char.ofNat (c.toNat - 32) else c

/-- Python `str.isalpha` on an ASCII character: true exactly on A–Z, a–z. -/
def isAsciiAlpha (c : Char) : Bool :=
  (65 ≤ c.toNat && c.toNat ≤ 90) || (97 ≤ c.toNat && c.toNat ≤ 122)

/-- The character class `[A-Z]` of `END_LETTER_RE`. -/
def isUpperLatin (c : Char) : Bool :=
  65 ≤ c.toNat && c.toNat ≤ 90

/-- Python's `sub in hay` substring test on strings. -/
def contains_sub (hay sub : List Char) : Bool :=
  match hay with
  | [] => sub.isEmpty
  | _ :: t => sub.isPrefixOf hay || contains_sub t sub

/-- The Unicode character database the source consumes through
`unicodedata`.  `nfkc c`/`nfkd c` model `unicodedata.normalize("NFKC", c)`
and `unicodedata.normalize("NFKD", c)` applied to the one-character string
`c`; `category0 c` models `unicodedata.category(c)[0]` (the first letter of
the general category); `uname c` models `unicodedata.name(c)`, with `none`
for the `ValueError` raised on characters without a formal name. -/
structure UnicodeData where
  nfkc : Char → List Char
  nfkd : Char → List Char
  category0 : Char → Char
  uname : Char → Option (List Char)

/-- The lazy tail `.*?([A-Z])$` of `END_LETTER_RE`, started right after a
`LETTER` occurrence.  The lazy star first tries to consume nothing, so at
each position it first tests whether a single `[A-Z]` character ends the
string here (which forces that position to be the last one; Unicode
character names contain no newline, so the `$` case "just before a trailing
newline" cannot arise), and otherwise consumes one character and retries. -/
def end_letter_tail : List Char → Option Char
  | [] => none
  | [c] => if isUpperLatin c then some c else none
  | _ :: c :: rest => end_letter_tail (c :: rest)

/-- `END_LETTER_RE.search(name)` for
`END_LETTER_RE = re.compile(r"LETTER.*?([A-Z])$")`, returning `m.group(1)`
of the match when one exists: `re.search` tries each start position from
the left; at a position where the literal `LETTER` matches, the rest of the
pattern is `.*?([A-Z])$` on the remaining suffix, and on failure the scan
resumes at the next start position. -/
def END_LETTER_RE_search : List Char → Option Char
  | [] => none
  | c :: rest =>
    if ("LETTER".toList).isPrefixOf (c :: rest) then
      match end_letter_tail ((c :: rest).drop 6) with
      | some b => some b
      | none => END_LETTER_RE_search rest
    else END_LETTER_RE_search rest

/-- The guard `len(nfkc) == 1 and ord(nfkc) < 128` of strategy 1 of
`char_to_ascii`. -/
def nfkc_single_ascii : List Char → Bool
  | [c] => c.toNat < 128
  | _ => false

/-- Strategy 3 of `char_to_ascii` (`src/main.py` lines 42–59): look up the
Unicode name (a `ValueError`, i.e. `uname = none`, returns `None`), search
it with `END_LETTER_RE`, and on a match case the captured base letter by
the `SMALL`/`CAPITAL` keywords of the name. -/
def name_fallback (D : UnicodeData) (ch : Char) : Option (List Char) :=
  match D.uname ch with
  | none => none
  | some nm =>
    match END_LETTER_RE_search nm with
    | some base =>
      let low_flag := contains_sub nm ("SMALL".toList) && !contains_sub nm ("CAPITAL".toList)
      let cap_flag := contains_sub nm ("CAPITAL".toList) && !contains_sub nm ("SMALL".toList)
      if low_flag then some [asciiLower base]
      else if cap_flag then some [asciiUpper base]
      else some [asciiLower base]
    | none => none

/-- `char_to_ascii` (`src/main.py` lines 26–59).  The result `Option (List
Char)` models `Optional[str]`.  In strategy 2 the guard has just
established that every character of `stripped` is below 128, so
`stripped.lower()` and `stripped.isalpha()` are the ASCII maps. -/
def char_to_ascii (D : UnicodeData) (ch : Char) : Option (List Char) :=
  if ch.toNat < 128 then
    some [ch]
  else
    let nfkc := D.nfkc ch
    if nfkc_single_ascii nfkc then some nfkc
    else
      let nfkd := D.nfkd ch
      let stripped := nfkd.filter (fun c => D.category0 c != 'M')
      if !stripped.isEmpty && stripped.all (fun c => c.toNat < 128) then
        some (if stripped.all isAsciiAlpha then stripped.map asciiLower else stripped)
      else
        name_fallback D ch

/-- `remove_combining` (`src/main.py` lines 61–63). -/
def remove_combining (D : UnicodeData) (ch : Char) : List Char :=
  (D.nfkd ch).filter (fun c => D.category0 c != 'M')

/-- The fallback of the per-character loop (`src/main.py` lines 77–82):
retry with a bare combining-mark strip, accept only an all-ASCII non-empty
result, otherwise emit the original character verbatim. -/
def strip_fallback (D : UnicodeData) (ch : Char) : List Char :=
  let rc := remove_combining D ch
  if !rc.isEmpty && rc.all (fun c => c.toNat < 128) then rc else [ch]

/-- One iteration of the per-character loop of `normalize_channel_name`
(`src/main.py` lines 67–82): ASCII fast path, then `char_to_ascii` (whose
result is used under Python truthiness: a `None` or empty string falls
through), then the strip fallback. -/
def normalize_step (D : UnicodeData) (ch : Char) : List Char :=
  if ch.toNat < 128 then [ch]
  else
    match char_to_ascii D ch with
    | some mapped => if !mapped.isEmpty then mapped else strip_fallback D ch
    | none => strip_fallback D ch

/-- State-machine core of `re.sub(r"\s{2,}", " ", result)`.  The scan state
is `none` in plain text, `some (some c)` after exactly one whitespace
character `c` (not yet known to start a `\s{2,}` match), and `some none`
inside a run already replaced by a single space.  A maximal run of two or
more whitespace characters (the pattern is greedy) becomes one `' '`; a
lone whitespace character is emitted unchanged. -/
def collapse_go : List Char → Option (Option Char) → List Char
  | [], none => []
  | [], some none => []
  | [], some (some c) => [c]
  | d :: rest, none =>
    if pyIsSpace d then collapse_go rest (some (some d)) else d :: collapse_go rest none
  | d :: rest, some (some c) =>
    if pyIsSpace d then ' ' :: collapse_go rest (some none)
    else c :: d :: collapse_go rest none
  | d :: rest, some none =>
    if pyIsSpace d then collapse_go rest (some none) else d :: collapse_go rest none

/-- `re.sub(r"\s{2,}", " ", result)` (`src/main.py` line 90). -/
def collapse_ws (l : List Char) : List Char :=
  collapse_go l none

/-- Python `str.strip()` with no argument: remove leading and trailing
whitespace (per `pyIsSpace`). -/
def py_strip (l : List Char) : List Char :=
  ((l.dropWhile pyIsSpace).reverse.dropWhile pyIsSpace).reverse

/-- `normalize_channel_name` (`src/main.py` lines 65–92): per-character
loop, join, `result.replace("│", "〢")` (a single-character-to-single-
character `str.replace`, i.e. a character map), whitespace collapse,
`strip()`. -/
def normalize_channel_name (D : UnicodeData) (original : List Char) : List Char :=
  let result := (original.map (normalize_step D)).flatten
  let result := result.map (fun c => if c = '│' then '〢' else c)
  py_strip (collapse_ws result)

/-- The variant of `normalize_step` with the standalone combining-mark-strip
fallback branch (`src/main.py` lines 77–79) deleted: an unmapped character
is emitted verbatim directly. -/
def normalize_step_nofb (D : UnicodeData) (ch : Char) : List Char :=
  if ch.toNat < 128 then [ch]
  else
    match char_to_ascii D ch with
    | some mapped => if !mapped.isEmpty then mapped else [ch]
    | none => [ch]

/-- `normalize_channel_name` with the strip-fallback branch deleted. -/
def normalize_channel_name_nofb (D : UnicodeData) (original : List Char) : List Char :=
  let result := (original.map (normalize_step_nofb D)).flatten
  let result := result.map (fun c => if c = '│' then '〢' else c)
  py_strip (collapse_ws result)

/-- Fragment of the CPython `unicodedata` tables (Unicode Character
Database), restricted to the non-ASCII characters exercised by the concrete
examples below: `é` (U+00E9), the combining acute accent (U+0301), `│`
(U+2502 BOX DRAWINGS LIGHT VERTICAL), `〢` (U+3022 HANGZHOU NUMERAL TWO),
`Đ`/`đ` (U+0110/U+0111, LATIN CAPITAL/SMALL LETTER D WITH STROKE, which
have no decomposition).  Characters outside the fragment keep the identity
decompositions, category `C` (as for unassigned code points such as U+0378)
and no formal name. -/
def pyDB : UnicodeData where
  nfkc := fun c => if c = 'é' then ['é'] else [c]
  nfkd := fun c => if c = 'é' then ['e', '́'] else [c]
  category0 := fun c =>
    if c = '́' then 'M'
    else if c = '│' then 'S'
    else if c = '〢' then 'N'
    else if c = 'é' || c = 'Đ' || c = 'đ' || isAsciiAlpha c then 'L'
    else 'C'
  uname := fun c =>
    if c = '│' then some ("BOX DRAWINGS LIGHT VERTICAL".toList)
    else if c = '〢' then some ("HANGZHOU NUMERAL TWO".toList)
    else if c = 'é' then some ("LATIN SMALL LETTER E WITH ACUTE".toList)
    else if c = 'Đ' then some ("LATIN CAPITAL LETTER D WITH STROKE".toList)
    else if c = 'đ' then some ("LATIN SMALL LETTER D WITH STROKE".toList)
    else if c = '́' then some ("COMBINING ACUTE ACCENT".toList)
    else none

/-! Auxiliary lemmas about the ASCII case maps. -/

lemma toNat_ofNat_add32 (n : Nat) (h1 : 65 ≤ n) (h2 : n ≤ 90) :
    (Char.ofNat (n + 32)).toNat = n + 32 := by
  interval_cases n <;> decide

lemma toNat_ofNat_sub32 (n : Nat) (h1 : 97 ≤ n) (h2 : n ≤ 122) :
    (Char.ofNat (n - 32)).toNat = n - 32 := by
  interval_cases n <;> decide

lemma asciiLower_toNat_lt (c : Char) (h : c.toNat < 128) : (asciiLower c).toNat < 128 := by
  unfold asciiLower
  split
  · next hg =>
      obtain ⟨hg1, hg2⟩ := by simpa using hg
      rw [toNat_ofNat_add32 c.toNat hg1 hg2]
      omega
  · exact h

lemma asciiUpper_toNat_lt (c : Char) (h : c.toNat < 128) : (asciiUpper c).toNat < 128 := by
  unfold asciiUpper
  split
  · next hg =>
      obtain ⟨hg1, hg2⟩ := by simpa using hg
      rw [toNat_ofNat_sub32 c.toNat hg1 hg2]
      omega
  · exact h

lemma isUpperLatin_toNat_lt (c : Char) (h : isUpperLatin c = true) : c.toNat < 128 := by
  unfold isUpperLatin at h
  obtain ⟨h1, h2⟩ := by simpa using h
  omega

/-- C5: for a non-ASCII character on which the single-codepoint NFKC
strategy fails, `char_to_ascii` applies NFKD decomposition, removes every
character whose general category starts with `M`, and returns the remainder
exactly when it is non-empty and all-ASCII, lower-casing it if and only if
it is purely alphabetic (otherwise it falls to the name strategy); and
`normalize_channel_name` maps `"café"` to `"cafe"`. -/
theorem decomp_strategy_spec (D : UnicodeData) (ch : Char)
    (h1 : 128 ≤ ch.toNat) (h2 : nfkc_single_ascii (D.nfkc ch) = false) :
    char_to_ascii D ch =
      (if !((D.nfkd ch).filter (fun c => D.category0 c != 'M')).isEmpty &&
          ((D.nfkd ch).filter (fun c => D.category0 c != 'M')).all (fun c => c.toNat < 128) then
        some (if ((D.nfkd ch).filter (fun c => D.category0 c != 'M')).all isAsciiAlpha then
                ((D.nfkd ch).filter (fun c => D.category0 c != 'M')).map asciiLower
              else (D.nfkd ch).filter (fun c => D.category0 c != 'M'))
      else name_fallback D ch) ∧
    normalize_channel_name pyDB ("café".toList) = "cafe".toList := by
  constructor
  · simp [char_to_ascii, Nat.not_lt.mpr h1, h2]
  · decide

theorem decomp_strategy_spec_witness :
    char_to_ascii pyDB 'é' =
      (if !((pyDB.nfkd 'é').filter (fun c => pyDB.category0 c != 'M')).isEmpty &&
          ((pyDB.nfkd 'é').filter (fun c => pyDB.category0 c != 'M')).all
            (fun c => c.toNat < 128) then
        some (if ((pyDB.nfkd 'é').filter (fun c => pyDB.category0 c != 'M')).all isAsciiAlpha then
                ((pyDB.nfkd 'é').filter (fun c => pyDB.category0 c != 'M')).map asciiLower
              else (pyDB.nfkd 'é').filter (fun c => pyDB.category0 c != 'M'))
      else name_fallback pyDB 'é') ∧
    normalize_channel_name pyDB ("café".toList) = "cafe".toList :=
  decomp_strategy_spec pyDB 'é' (by decide) (by decide)

/-- C7: when the name strategy has extracted a base letter, the returned
case is decided from the full name alone: lower when the name contains
`SMALL` but not `CAPITAL`, upper when it contains `CAPITAL` but not
`SMALL`, and lower in the tie-break case where both or neither occur. -/
theorem name_case_inference (D : UnicodeData) (ch : Char) (nm : List Char) (b : Char)
    (h1 : D.uname ch = some nm) (h2 : END_LETTER_RE_search nm = some b) :
    ((contains_sub nm ("SMALL".toList) = true ∧ contains_sub nm ("CAPITAL".toList) = false) →
      name_fallback D ch = some [asciiLower b]) ∧
    ((contains_sub nm ("CAPITAL".toList) = true ∧ contains_sub nm ("SMALL".toList) = false) →
      name_fallback D ch = some [asciiUpper b]) ∧
    (contains_sub nm ("SMALL".toList) = contains_sub nm ("CAPITAL".toList) →
      name_fallback D ch = some [asciiLower b]) := by
  refine ⟨fun h => ?_, fun h => ?_, fun h => ?_⟩
  · have hS : contains_sub nm ['S', 'M', 'A', 'L', 'L'] = true := h.1
    have hC : contains_sub nm ['C', 'A', 'P', 'I', 'T', 'A', 'L'] = false := h.2
    simp [name_fallback, h1, h2, hS, hC]
  · have hC : contains_sub nm ['C', 'A', 'P', 'I', 'T', 'A', 'L'] = true := h.1
    have hS : contains_sub nm ['S', 'M', 'A', 'L', 'L'] = false := h.2
    simp [name_fallback, h1, h2, hS, hC]
  · cases hs : contains_sub nm ("SMALL".toList) with
    | false =>
        have hS : contains_sub nm ['S', 'M', 'A', 'L', 'L'] = false := hs
        have hC : contains_sub nm ['C', 'A', 'P', 'I', 'T', 'A', 'L'] = false := by
          have h' : contains_sub nm ("CAPITAL".toList) = false := by rw [← h, hs]
          exact h'
        simp [name_fallback, h1, h2, hS, hC]
    | true =>
        have hS : contains_sub nm ['S', 'M', 'A', 'L', 'L'] = true := hs
        have hC : contains_sub nm ['C', 'A', 'P', 'I', 'T', 'A', 'L'] = true := by
          have h' : contains_sub nm ("CAPITAL".toList) = true := by rw [← h, hs]
          exact h'
        simp [name_fallback, h1, h2, hS, hC]

theorem name_case_inference_witness :
    name_fallback pyDB 'Đ' = some [asciiUpper 'E'] :=
  (name_case_inference pyDB 'Đ' ("LATIN CAPITAL LETTER D WITH STROKE".toList) 'E'
      (by decide) (by decide)).2.1 (by decide)

/-- C1: `normalize_channel_name` is a total pure function (it always has a
result, for every database and every input string), and the name-lookup
failure for nameless characters is absorbed into the unmapped signal of
`char_to_ascii` (it becomes `none`, handled by the normal fallback path,
rather than an error that propagates). -/
theorem normalize_total_and_name_absorbed (D : UnicodeData) (s : List Char) (ch : Char)
    (h1 : D.uname ch = none) (h2 : 128 ≤ ch.toNat)
    (h3 : nfkc_single_ascii (D.nfkc ch) = false)
    (h4 : (!((D.nfkd ch).filter (fun c => D.category0 c != 'M')).isEmpty &&
          ((D.nfkd ch).filter (fun c => D.category0 c != 'M')).all
            (fun c => c.toNat < 128)) = false) :
    char_to_ascii D ch = none ∧ normalize_step D ch = strip_fallback D ch ∧
    ∃ t : List Char, normalize_channel_name D s = t := by
  have hc : char_to_ascii D ch = none := by
    unfold char_to_ascii
    rw [if_neg (Nat.not_lt.mpr h2), if_neg (fun h5 => Bool.false_ne_true (h3.symm.trans h5)),
        if_neg (fun h5 => Bool.false_ne_true (h4.symm.trans h5))]
    simp [name_fallback, h1]
  refine ⟨hc, ?_, ⟨_, rfl⟩⟩
  simp [normalize_step, Nat.not_lt.mpr h2, hc]

theorem normalize_total_and_name_absorbed_witness :
    char_to_ascii pyDB (Char.ofNat 0x378) = none ∧
    normalize_step pyDB (Char.ofNat 0x378) = strip_fallback pyDB (Char.ofNat 0x378) ∧
    ∃ t : List Char, normalize_channel_name pyDB ("a".toList) = t :=
  normalize_total_and_name_absorbed pyDB ("a".toList) (Char.ofNat 0x378)
    (by decide) (by decide) (by decide) (by decide)

/-! Characterization of the embedded `END_LETTER_RE` matcher. -/

lemma end_letter_tail_eq (l : List Char) :
    end_letter_tail l =
      match l.getLast? with
      | none => none
      | some c => if isUpperLatin c then some c else none := by
  induction l with
  | nil => rfl
  | cons a t ih =>
    cases t with
    | nil => rfl
    | cons b t2 =>
      rw [show end_letter_tail (a :: b :: t2) = end_letter_tail (b :: t2) from rfl,
          List.getLast?_cons_cons]
      exact ih

lemma end_letter_tail_some {l : List Char} {b : Char} (h : end_letter_tail l = some b) :
    l.getLast? = some b ∧ isUpperLatin b = true := by
  rw [end_letter_tail_eq] at h
  cases hl : l.getLast? with
  | none => rw [hl] at h; exact absurd h (by simp)
  | some c =>
    rw [hl] at h
    have h2 : (if isUpperLatin c = true then some c else none) = some b := h
    cases hq : isUpperLatin c with
    | false => rw [hq] at h2; simp at h2
    | true =>
      rw [hq] at h2
      simp at h2
      subst h2
      exact ⟨rfl, hq⟩

lemma end_letter_tail_of_getLast {l : List Char} {b : Char} (h : l.getLast? = some b)
    (hb : isUpperLatin b = true) : end_letter_tail l = some b := by
  rw [end_letter_tail_eq, h]
  show (if isUpperLatin b = true then some b else none) = some b
  simp [hb]

lemma getLast?_nested (pre mid sub : List Char) (b : Char) :
    (pre ++ (sub ++ (mid ++ [b]))).getLast? = some b := by
  rw [List.getLast?_append_of_ne_nil _ (by simp : sub ++ (mid ++ [b]) ≠ []),
      List.getLast?_append_of_ne_nil _ (by simp : mid ++ [b] ≠ []),
      List.getLast?_concat]

lemma search_spec_forward : ∀ {nm : List Char} {b : Char},
    END_LETTER_RE_search nm = some b →
    nm.getLast? = some b ∧ isUpperLatin b = true ∧
    ∃ pre mid, nm = pre ++ (("LETTER".toList) ++ (mid ++ [b])) := by
  intro nm
  induction nm with
  | nil => intro b h; cases h
  | cons c rest ih =>
    intro b h
    simp only [END_LETTER_RE_search] at h
    by_cases hp : (("LETTER".toList).isPrefixOf (c :: rest)) = true
    · rw [if_pos hp] at h
      cases ht : end_letter_tail ((c :: rest).drop 6) with
      | some b0 =>
        rw [ht] at h
        have h2 : (some b0 : Option Char) = some b := h
        have hbb : b0 = b := Option.some.inj h2
        rw [hbb] at ht
        obtain ⟨hlast, hup⟩ := end_letter_tail_some ht
        obtain ⟨t, hteq⟩ := List.isPrefixOf_iff_prefix.mp hp
        have hdrop : (c :: rest).drop 6 = t := by
          rw [← hteq, show (6 : Nat) = ("LETTER".toList).length from rfl]
          exact List.drop_left _ _
        rw [hdrop] at hlast
        have hne : t ≠ [] := by intro ht0; rw [ht0] at hlast; cases hlast
        refine ⟨?_, hup, [], t.dropLast, ?_⟩
        · rw [← hteq, List.getLast?_append_of_ne_nil _ hne]
          exact hlast
        · rw [← hteq, List.nil_append]
          have hsplit : t.dropLast ++ [b] = t :=
            List.dropLast_append_getLast? b hlast
          rw [hsplit]
      | none =>
        rw [ht] at h
        have h2 : END_LETTER_RE_search rest = some b := h
        obtain ⟨hlast, hup, pre, mid, heq⟩ := ih h2
        have hrne : rest ≠ [] := by intro h0; rw [h0] at h2; cases h2
        refine ⟨?_, hup, c :: pre, mid, by rw [heq]; rfl⟩
        cases rest with
        | nil => exact absurd rfl hrne
        | cons e r2 => rw [List.getLast?_cons_cons]; exact hlast
    · rw [if_neg hp] at h
      obtain ⟨hlast, hup, pre, mid, heq⟩ := ih h
      have hrne : rest ≠ [] := by intro h0; rw [h0] at h; cases h
      refine ⟨?_, hup, c :: pre, mid, by rw [heq]; rfl⟩
      cases rest with
      | nil => exact absurd rfl hrne
      | cons e r2 => rw [List.getLast?_cons_cons]; exact hlast

lemma search_spec_backward : ∀ (pre mid : List Char) (b : Char),
    isUpperLatin b = true →
    (END_LETTER_RE_search (pre ++ (("LETTER".toList) ++ (mid ++ [b])))).isSome = true := by
  intro pre
  induction pre with
  | nil =>
    intro mid b hb
    rw [List.nil_append,
        show ("LETTER".toList) ++ (mid ++ [b]) =
          'L' :: 'E' :: 'T' :: 'T' :: 'E' :: 'R' :: (mid ++ [b]) from rfl]
    simp only [END_LETTER_RE_search]
    have hp : ("LETTER".toList).isPrefixOf
        ('L' :: 'E' :: 'T' :: 'T' :: 'E' :: 'R' :: (mid ++ [b])) = true := by
      simp [List.isPrefixOf]
    rw [if_pos hp,
        show ('L' :: 'E' :: 'T' :: 'T' :: 'E' :: 'R' :: (mid ++ [b])).drop 6 = mid ++ [b]
          from rfl,
        end_letter_tail_of_getLast (List.getLast?_concat mid) hb]
    rfl
  | cons a pre2 ih =>
    intro mid b hb
    rw [List.cons_append]
    simp only [END_LETTER_RE_search]
    by_cases hp : ("LETTER".toList).isPrefixOf
        (a :: (pre2 ++ (("LETTER".toList) ++ (mid ++ [b])))) = true
    · rw [if_pos hp]
      cases ht : end_letter_tail ((a :: (pre2 ++ (("LETTER".toList) ++ (mid ++ [b])))).drop 6) with
      | some b0 => rfl
      | none =>
        exfalso
        have hlen : 8 ≤ (a :: (pre2 ++ (("LETTER".toList) ++ (mid ++ [b])))).length := by
          simp [List.length_append, show ("LETTER".toList).length = 6 from rfl]
          omega
        have hne : (a :: (pre2 ++ (("LETTER".toList) ++ (mid ++ [b])))).drop 6 ≠ [] := by
          intro h0
          have hl6 := List.length_drop 6 (a :: (pre2 ++ (("LETTER".toList) ++ (mid ++ [b]))))
          rw [h0] at hl6
          simp at hl6
          omega
        have hglast : ((a :: (pre2 ++ (("LETTER".toList) ++ (mid ++ [b])))).drop 6).getLast? =
            (a :: (pre2 ++ (("LETTER".toList) ++ (mid ++ [b])))).getLast? := by
          conv_rhs => rw [← List.take_append_drop 6 (a :: (pre2 ++ (("LETTER".toList) ++ (mid ++ [b]))))]
          rw [List.getLast?_append_of_ne_nil _ hne]
        have hlast : (a :: (pre2 ++ (("LETTER".toList) ++ (mid ++ [b])))).getLast? = some b := by
          rw [show a :: (pre2 ++ (("LETTER".toList) ++ (mid ++ [b]))) =
              (a :: pre2) ++ (("LETTER".toList) ++ (mid ++ [b])) from rfl]
          exact getLast?_nested (a :: pre2) mid ("LETTER".toList) b
        rw [end_letter_tail_of_getLast (hglast.trans hlast) hb] at ht
        cases ht
    · rw [if_neg hp]
      exact ih mid b hb

/-- C6: the name strategy succeeds exactly when the Unicode name contains
the literal substring `LETTER` followed, after any characters, by a single
uppercase Latin letter at the very end of the name; on success the captured
base form is the final character of the name; a nameless character or a
non-matching name yields the unmapped signal. -/
theorem end_letter_name_strategy (D : UnicodeData) (ch : Char) (nm : List Char) :
    ((∃ b, END_LETTER_RE_search nm = some b) ↔
      ∃ pre mid c, nm = pre ++ (("LETTER".toList) ++ (mid ++ [c])) ∧ isUpperLatin c = true) ∧
    (∀ b, END_LETTER_RE_search nm = some b → nm.getLast? = some b) ∧
    (D.uname ch = none → name_fallback D ch = none) ∧
    (∀ nm2, D.uname ch = some nm2 → END_LETTER_RE_search nm2 = none →
      name_fallback D ch = none) := by
  refine ⟨⟨?_, ?_⟩, ?_, ?_, ?_⟩
  · rintro ⟨b, hb⟩
    obtain ⟨_, hup, pre, mid, heq⟩ := search_spec_forward hb
    exact ⟨pre, mid, b, heq, hup⟩
  · rintro ⟨pre, mid, c, heq, hup⟩
    have hs := search_spec_backward pre mid c hup
    rw [← heq] at hs
    exact Option.isSome_iff_exists.mp hs
  · intro b hb
    exact (search_spec_forward hb).1
  · intro h
    simp [name_fallback, h]
  · intro nm2 h hs
    simp [name_fallback, h, hs]

theorem end_letter_name_strategy_witness :
    ("LATIN SMALL LETTER A".toList).getLast? = some 'A' :=
  (end_letter_name_strategy pyDB 'a' ("LATIN SMALL LETTER A".toList)).2.1 'A' (by decide)

/-! Membership lemmas for the whole-string post-pass. -/

lemma mem_collapse_go {c : Char} : ∀ (l : List Char) (st : Option (Option Char)),
    c ∈ collapse_go l st → c ∈ l ∨ c = ' ' ∨ st = some (some c) := by
  intro l
  induction l with
  | nil =>
    intro st h
    cases st with
    | none => cases h
    | some o =>
      cases o with
      | none => cases h
      | some c0 =>
        simp [collapse_go] at h
        exact Or.inr (Or.inr (by rw [h]))
  | cons d rest ih =>
    intro st h
    cases st with
    | none =>
      simp only [collapse_go] at h
      by_cases hd : pyIsSpace d = true
      · rw [if_pos hd] at h
        rcases ih _ h with h1 | h2 | h3
        · exact Or.inl (List.mem_cons_of_mem d h1)
        · exact Or.inr (Or.inl h2)
        · have h5 : d = c := Option.some.inj (Option.some.inj h3)
          exact Or.inl (by rw [← h5]; exact List.mem_cons_self d rest)
      · rw [if_neg hd] at h
        rcases List.mem_cons.mp h with h1 | h1
        · exact Or.inl (by rw [h1]; exact List.mem_cons_self d rest)
        · rcases ih _ h1 with h2 | h3 | h4
          · exact Or.inl (List.mem_cons_of_mem d h2)
          · exact Or.inr (Or.inl h3)
          · exact Option.noConfusion h4
    | some o =>
      cases o with
      | none =>
        simp only [collapse_go] at h
        by_cases hd : pyIsSpace d = true
        · rw [if_pos hd] at h
          rcases ih _ h with h1 | h2 | h3
          · exact Or.inl (List.mem_cons_of_mem d h1)
          · exact Or.inr (Or.inl h2)
          · exact absurd h3 (by simp)
        · rw [if_neg hd] at h
          rcases List.mem_cons.mp h with h1 | h1
          · exact Or.inl (by rw [h1]; exact List.mem_cons_self d rest)
          · rcases ih _ h1 with h2 | h3 | h4
            · exact Or.inl (List.mem_cons_of_mem d h2)
            · exact Or.inr (Or.inl h3)
            · exact Option.noConfusion h4
      | some c0 =>
        simp only [collapse_go] at h
        by_cases hd : pyIsSpace d = true
        · rw [if_pos hd] at h
          rcases List.mem_cons.mp h with h1 | h1
          · exact Or.inr (Or.inl h1)
          · rcases ih _ h1 with h2 | h3 | h4
            · exact Or.inl (List.mem_cons_of_mem d h2)
            · exact Or.inr (Or.inl h3)
            · exact absurd h4 (by simp)
        · rw [if_neg hd] at h
          rcases List.mem_cons.mp h with h1 | h1
          · exact Or.inr (Or.inr (by rw [h1]))
          · rcases List.mem_cons.mp h1 with h2 | h2
            · exact Or.inl (by rw [h2]; exact List.mem_cons_self d rest)
            · rcases ih _ h2 with h3 | h4 | h5
              · exact Or.inl (List.mem_cons_of_mem d h3)
              · exact Or.inr (Or.inl h4)
              · exact Option.noConfusion h5

lemma mem_collapse_ws {c : Char} {l : List Char} (h : c ∈ collapse_ws l) : c ∈ l ∨ c = ' ' := by
  rcases mem_collapse_go l none h with h1 | h2 | h3
  · exact Or.inl h1
  · exact Or.inr h2
  · exact Option.noConfusion h3

lemma mem_py_strip {c : Char} {l : List Char} (h : c ∈ py_strip l) : c ∈ l := by
  have h1 : c ∈ List.dropWhile pyIsSpace l :=
    (( List.rdropWhile_prefix pyIsSpace (List.dropWhile pyIsSpace l)).sublist).subset h
  exact (List.dropWhile_suffix pyIsSpace).sublist.subset h1

/-- C2: the whole-string post-pass performs the one literal substitution in
the implemented direction: every `│` (U+2502) of the assembled
per-character output becomes `〢` (U+3022), never the reverse, so `│` never
occurs in the output of `normalize_channel_name`. -/
theorem boxbar_substitution (D : UnicodeData) (s : List Char) :
    (normalize_channel_name D s).all (fun c => c != '│') = true ∧
    normalize_channel_name pyDB ("│".toList) = "〢".toList ∧
    normalize_channel_name pyDB ("〢".toList) = "〢".toList := by
  refine ⟨?_, by decide, by decide⟩
  rw [List.all_eq_true]
  intro c hc
  show (c != '│') = true
  have hc2 : c ∈ py_strip (collapse_ws
      (((s.map (normalize_step D)).flatten).map (fun x => if x = '│' then '〢' else x))) := hc
  rcases mem_collapse_ws (mem_py_strip hc2) with h1 | h2
  · rcases List.mem_map.mp h1 with ⟨x, _, hx⟩
    by_cases hxb : x = '│'
    · rw [hxb, if_pos rfl] at hx
      rw [← hx]
      decide
    · rw [if_neg hxb] at hx
      rw [← hx]
      simp [hxb]
  · rw [h2]
    decide

lemma collapse_go_run_head : ∀ (l : List Char) (c : Char),
    (collapse_go l (some none)).head? = some c → pyIsSpace c = false := by
  intro l
  induction l with
  | nil => intro c h; cases h
  | cons d rest ih =>
    intro c h
    simp only [collapse_go] at h
    by_cases hd : pyIsSpace d = true
    · rw [if_pos hd] at h
      exact ih c h
    · rw [if_neg hd] at h
      have hdc : d = c := Option.some.inj h
      rw [← hdc]
      exact Bool.not_eq_true _ ▸ hd

lemma collapse_go_chain : ∀ (l : List Char) (st : Option (Option Char)),
    List.Chain' (fun a b => pyIsSpace a = false ∨ pyIsSpace b = false) (collapse_go l st) := by
  intro l
  induction l with
  | nil =>
    intro st
    cases st with
    | none => simp [collapse_go]
    | some o => cases o <;> simp [collapse_go]
  | cons d rest ih =>
    intro st
    have hnonws : ∀ (st2 : Option (Option Char)), pyIsSpace d = false →
        List.Chain' (fun a b => pyIsSpace a = false ∨ pyIsSpace b = false)
          (d :: collapse_go rest st2) := by
      intro st2 hd
      rw [List.chain'_cons']
      exact ⟨fun y _ => Or.inl hd, ih st2⟩
    cases st with
    | none =>
      simp only [collapse_go]
      cases hd : pyIsSpace d with
      | true => rw [if_pos rfl]; exact ih _
      | false => rw [if_neg (by simp)]; exact hnonws none hd
    | some o =>
      cases o with
      | none =>
        simp only [collapse_go]
        cases hd : pyIsSpace d with
        | true => rw [if_pos rfl]; exact ih _
        | false => rw [if_neg (by simp)]; exact hnonws none hd
      | some c0 =>
        simp only [collapse_go]
        cases hd : pyIsSpace d with
        | true =>
          rw [if_pos rfl, List.chain'_cons']
          refine ⟨fun y hy => Or.inr ?_, ih _⟩
          exact collapse_go_run_head rest y hy
        | false =>
          rw [if_neg (by simp), List.chain'_cons']
          refine ⟨fun y hy => ?_, hnonws none hd⟩
          have hy2 : (some d : Option Char) = some y := hy
          rw [(Option.some.inj hy2).symm]
          exact Or.inr hd

lemma head?_dropWhile_not (p : Char → Bool) (l : List Char) :
    ∀ c, (List.dropWhile p l).head? = some c → p c = false := by
  induction l with
  | nil => intro c h; cases h
  | cons a t ih =>
    intro c h
    rw [List.dropWhile_cons] at h
    by_cases hp : p a = true
    · rw [if_pos hp] at h
      exact ih c h
    · rw [if_neg hp] at h
      have hac : a = c := Option.some.inj h
      rw [← hac]
      exact Bool.not_eq_true _ ▸ hp

lemma py_strip_head (l : List Char) :
    ∀ c, (py_strip l).head? = some c → pyIsSpace c = false := by
  intro c hc
  obtain ⟨t2, ht⟩ := List.rdropWhile_prefix pyIsSpace (List.dropWhile pyIsSpace l)
  cases hps : py_strip l with
  | nil => rw [hps] at hc; cases hc
  | cons a t =>
    rw [hps] at hc
    have hac : a = c := Option.some.inj hc
    have hdw : List.dropWhile pyIsSpace l = a :: (t ++ t2) := by
      rw [← ht]
      have hps2 : List.rdropWhile pyIsSpace (List.dropWhile pyIsSpace l) = a :: t := hps
      rw [hps2]
      rfl
    apply head?_dropWhile_not pyIsSpace l
    rw [hdw]
    rw [← hac]
    rfl

lemma py_strip_last (l : List Char) :
    ∀ c, (py_strip l).getLast? = some c → pyIsSpace c = false := by
  intro c hc
  have hc2 : (List.dropWhile pyIsSpace
      ((List.dropWhile pyIsSpace l).reverse)).reverse.getLast? = some c := hc
  rw [List.getLast?_reverse] at hc2
  exact head?_dropWhile_not pyIsSpace _ c hc2

/-- C8: after the literal substitution, `normalize_channel_name` collapses
whitespace and trims: the result is the strip of the collapse of the
substituted per-character output, it contains no two adjacent whitespace
characters and neither starts nor ends with whitespace, and on the
examples: `"a    b"` becomes `"a b"` and `"  a  "` becomes `"a"`. -/
theorem whitespace_postpass (D : UnicodeData) (s : List Char) :
    normalize_channel_name D s =
      py_strip (collapse_ws (((s.map (normalize_step D)).flatten).map
        (fun c => if c = '│' then '〢' else c))) ∧
    List.Chain' (fun a b => pyIsSpace a = false ∨ pyIsSpace b = false)
      (normalize_channel_name D s) ∧
    (∀ c, (normalize_channel_name D s).head? = some c → pyIsSpace c = false) ∧
    (∀ c, (normalize_channel_name D s).getLast? = some c → pyIsSpace c = false) ∧
    normalize_channel_name pyDB ("a    b".toList) = "a b".toList ∧
    normalize_channel_name pyDB ("  a  ".toList) = "a".toList := by
  refine ⟨rfl, ?_, py_strip_head _, py_strip_last _, by decide, by decide⟩
  have h1 := collapse_go_chain (((s.map (normalize_step D)).flatten).map
      (fun c => if c = '│' then '〢' else c)) none
  have h2 := h1.suffix (List.dropWhile_suffix pyIsSpace)
  exact List.Chain'.prefix h2 ( List.rdropWhile_prefix pyIsSpace _)

theorem whitespace_postpass_witness : pyIsSpace 'a' = false :=
  (whitespace_postpass pyDB ("  a  ".toList)).2.2.1 'a' (by decide)

/-! Lemmas for the ASCII pass-through property. -/

lemma normalize_step_ascii (D : UnicodeData) (ch : Char) (h : ch.toNat < 128) :
    normalize_step D ch = [ch] := by
  simp [normalize_step, h]

lemma flatten_map_step_of_ascii (D : UnicodeData) : ∀ s : List Char,
    (∀ c ∈ s, c.toNat < 128) → (s.map (normalize_step D)).flatten = s := by
  intro s
  induction s with
  | nil => intro _; rfl
  | cons c t ih =>
    intro h
    rw [List.map_cons, List.flatten_cons, normalize_step_ascii D c (h c (List.mem_cons_self c t)),
        ih (fun x hx => h x (List.mem_cons_of_mem c hx))]
    rfl

lemma map_subst_of_ascii : ∀ s : List Char,
    (∀ c ∈ s, c.toNat < 128) → s.map (fun c => if c = '│' then '〢' else c) = s := by
  intro s
  induction s with
  | nil => intro _; rfl
  | cons c t ih =>
    intro h
    have hne : ¬(c = '│') := by
      intro he
      have h2 := h c (List.mem_cons_self c t)
      rw [he] at h2
      exact absurd h2 (by decide)
    rw [List.map_cons, if_neg hne, ih (fun x hx => h x (List.mem_cons_of_mem c hx))]

lemma collapse_id : ∀ l : List Char,
    List.Chain' (fun a b => pyIsSpace a = false ∨ pyIsSpace b = false) l →
    collapse_go l none = l := by
  intro l
  induction l with
  | nil => intro _; rfl
  | cons d rest ih =>
    intro h
    obtain ⟨hedge, htail⟩ := List.chain'_cons'.mp h
    simp only [collapse_go]
    by_cases hd : pyIsSpace d = true
    · rw [if_pos hd]
      cases rest with
      | nil => rfl
      | cons e r2 =>
        have he : pyIsSpace e = false := by
          rcases hedge e rfl with h1 | h2
          · exact absurd (h1.symm.trans hd) Bool.false_ne_true
          · exact h2
        simp only [collapse_go]
        rw [if_neg (by simp [he])]
        have h3 := ih htail
        simp only [collapse_go] at h3
        rw [if_neg (by simp [he])] at h3
        injection h3 with _ h4
        rw [h4]
    · rw [if_neg hd, ih htail]

/-- C3: every ASCII character is emitted unchanged (case untouched) by the
per-character stage, and an all-ASCII string with no two adjacent
whitespace characters and no leading or trailing whitespace is returned
unchanged by `normalize_channel_name`. -/
theorem ascii_passthrough (D : UnicodeData) (s : List Char)
    (hascii : ∀ c ∈ s, c.toNat < 128)
    (hchain : List.Chain' (fun a b => pyIsSpace a = false ∨ pyIsSpace b = false) s)
    (hhead : s.head?.all (fun c => !pyIsSpace c) = true)
    (hlast : s.getLast?.all (fun c => !pyIsSpace c) = true) :
    (∀ ch : Char, ch.toNat < 128 → normalize_step D ch = [ch]) ∧
    normalize_channel_name D s = s := by
  refine ⟨fun ch h => normalize_step_ascii D ch h, ?_⟩
  have hdw : List.dropWhile pyIsSpace s = s := by
    cases s with
    | nil => rfl
    | cons a t =>
      have ha2 : (some a).all (fun c => !pyIsSpace c) = true := hhead
      have ha : pyIsSpace a = false := by simpa using ha2
      rw [List.dropWhile_cons, if_neg (by simp [ha])]
  have hrdw : List.rdropWhile pyIsSpace s = s := by
    rw [List.rdropWhile_eq_self_iff]
    intro hl
    have h2 := List.getLast?_eq_getLast s hl
    rw [h2] at hlast
    have h3 : (!pyIsSpace (s.getLast hl)) = true := by simpa using hlast
    simpa using h3
  show py_strip (collapse_ws (((s.map (normalize_step D)).flatten).map
      (fun c => if c = '│' then '〢' else c))) = s
  rw [flatten_map_step_of_ascii D s hascii, map_subst_of_ascii s hascii,
      show collapse_ws s = s from collapse_id s hchain,
      show py_strip s = List.rdropWhile pyIsSpace (List.dropWhile pyIsSpace s) from rfl,
      hdw, hrdw]

theorem ascii_passthrough_witness :
    normalize_channel_name pyDB ("general chat 1".toList) = "general chat 1".toList :=
  (ascii_passthrough pyDB ("general chat 1".toList)
    (by decide)
    (by
      rw [show ("general chat 1".toList) =
        ['g', 'e', 'n', 'e', 'r', 'a', 'l', ' ', 'c', 'h', 'a', 't', ' ', '1'] from rfl]
      simp only [List.chain'_cons, List.chain'_singleton]
      decide)
    (by decide) (by decide)).2

/-! Lemmas on the shapes of successful mapper results. -/

lemma nfkc_single_ascii_all {l : List Char} (h : nfkc_single_ascii l = true) :
    l.all (fun c => c.toNat < 128) = true ∧ 0 < l.length := by
  cases l with
  | nil => exact absurd h (by simp [nfkc_single_ascii])
  | cons c t =>
    cases t with
    | nil =>
      have h2 : decide (c.toNat < 128) = true := h
      exact ⟨by simpa using h2, by simp⟩
    | cons b t2 => exact absurd h (by simp [nfkc_single_ascii])

lemma name_fallback_shape (D : UnicodeData) (ch : Char) (r : List Char)
    (h : name_fallback D ch = some r) :
    ∃ b, isUpperLatin b = true ∧ (r = [asciiLower b] ∨ r = [asciiUpper b]) := by
  unfold name_fallback at h
  cases hu : D.uname ch with
  | none =>
    rw [hu] at h
    have h2 : (none : Option (List Char)) = some r := h
    cases h2
  | some nm =>
    rw [hu] at h
    have h1 : (match END_LETTER_RE_search nm with
        | some base =>
          if (contains_sub nm ("SMALL".toList) && !contains_sub nm ("CAPITAL".toList)) = true then
            some [asciiLower base]
          else if (contains_sub nm ("CAPITAL".toList) &&
              !contains_sub nm ("SMALL".toList)) = true then
            some [asciiUpper base]
          else some [asciiLower base]
        | none => none) = some r := h
    clear h
    cases hs : END_LETTER_RE_search nm with
    | none =>
      rw [hs] at h1
      have h2 : (none : Option (List Char)) = some r := h1
      cases h2
    | some b =>
      rw [hs] at h1
      have hup : isUpperLatin b = true := (search_spec_forward hs).2.1
      refine ⟨b, hup, ?_⟩
      have h2 : (if (contains_sub nm ("SMALL".toList) &&
            !contains_sub nm ("CAPITAL".toList)) = true then
          some [asciiLower b]
        else if (contains_sub nm ("CAPITAL".toList) &&
            !contains_sub nm ("SMALL".toList)) = true then
          some [asciiUpper b]
        else some [asciiLower b]) = some r := h1
      by_cases hl : (contains_sub nm ("SMALL".toList) &&
          !contains_sub nm ("CAPITAL".toList)) = true
      · rw [if_pos hl] at h2
        exact Or.inl (Option.some.inj h2).symm
      · rw [if_neg hl] at h2
        by_cases hcp : (contains_sub nm ("CAPITAL".toList) &&
            !contains_sub nm ("SMALL".toList)) = true
        · rw [if_pos hcp] at h2
          exact Or.inr (Option.some.inj h2).symm
        · rw [if_neg hcp] at h2
          exact Or.inl (Option.some.inj h2).symm

lemma char_to_ascii_some_spec (D : UnicodeData) (ch : Char) (r : List Char)
    (h : char_to_ascii D ch = some r) :
    0 < r.length ∧ (128 ≤ ch.toNat → r.all (fun c => c.toNat < 128) = true) := by
  by_cases ha : ch.toNat < 128
  · unfold char_to_ascii at h
    rw [if_pos ha] at h
    rw [← Option.some.inj h]
    exact ⟨by simp, fun h2 => absurd ha (Nat.not_lt.mpr h2)⟩
  · unfold char_to_ascii at h
    rw [if_neg ha] at h
    by_cases hn : nfkc_single_ascii (D.nfkc ch) = true
    · rw [if_pos hn] at h
      rw [← Option.some.inj h]
      exact ⟨(nfkc_single_ascii_all hn).2, fun _ => (nfkc_single_ascii_all hn).1⟩
    · rw [if_neg hn] at h
      by_cases hg : (!((D.nfkd ch).filter (fun c => D.category0 c != 'M')).isEmpty &&
          ((D.nfkd ch).filter (fun c => D.category0 c != 'M')).all
            (fun c => c.toNat < 128)) = true
      · rw [if_pos hg] at h
        obtain ⟨hg1, hg2⟩ := Eq.mp (Bool.and_eq_true _ _) hg
        have hne : ((D.nfkd ch).filter (fun c => D.category0 c != 'M')) ≠ [] :=
          List.isEmpty_eq_false.mp (by simpa using hg1)
        rw [← Option.some.inj h]
        by_cases hal : ((D.nfkd ch).filter (fun c => D.category0 c != 'M')).all
            isAsciiAlpha = true
        · rw [if_pos hal]
          constructor
          · rw [List.length_map, List.length_pos]
            exact hne
          · intro _
            rw [List.all_eq_true]
            intro x hx
            rcases List.mem_map.mp hx with ⟨y, hy, hxy⟩
            have hy2 : y.toNat < 128 := by simpa using (List.all_eq_true.mp hg2) y hy
            rw [← hxy]
            simpa using asciiLower_toNat_lt y hy2
        · rw [if_neg hal]
          exact ⟨List.length_pos.mpr hne, fun _ => hg2⟩
      · rw [if_neg hg] at h
        obtain ⟨b, hup, hshape⟩ := name_fallback_shape D ch r h
        have hb : b.toNat < 128 := isUpperLatin_toNat_lt b hup
        rcases hshape with h3 | h3 <;> rw [h3]
        · exact ⟨by simp, fun _ => by simpa using asciiLower_toNat_lt b hb⟩
        · exact ⟨by simp, fun _ => by simpa using asciiUpper_toNat_lt b hb⟩

/-- C4: whenever `char_to_ascii` returns a replacement for a non-ASCII
character, or the standalone stripper fallback accepts a replacement
(returns something other than the verbatim character), every character of
that replacement is below code point 128. -/
theorem ascii_closure (D : UnicodeData) (ch : Char) (r : List Char) (h1 : 128 ≤ ch.toNat) :
    (char_to_ascii D ch = some r → r.all (fun c => c.toNat < 128) = true) ∧
    (strip_fallback D ch ≠ [ch] → (strip_fallback D ch).all (fun c => c.toNat < 128) = true) := by
  constructor
  · intro h
    exact (char_to_ascii_some_spec D ch r h).2 h1
  · intro h
    unfold strip_fallback at h ⊢
    by_cases hg : (!(remove_combining D ch).isEmpty &&
        (remove_combining D ch).all (fun c => c.toNat < 128)) = true
    · rw [if_pos hg]
      exact (Eq.mp (Bool.and_eq_true _ _) hg).2
    · rw [if_neg hg] at h
      exact absurd rfl h

theorem ascii_closure_witness :
    (['e'] : List Char).all (fun c => c.toNat < 128) = true ∧
    (strip_fallback pyDB 'é').all (fun c => c.toNat < 128) = true :=
  ⟨(ascii_closure pyDB 'é' ['e'] (by decide)).1 (by decide),
   (ascii_closure pyDB 'é' ['e'] (by decide)).2 (by decide)⟩

/-- C10: the per-character stage never deletes a character: `char_to_ascii`
never returns the empty string (modelled through `getD`, which also covers
the unmapped case), the stripper fallback never returns the empty string,
the per-character step always appends a non-empty segment, and a lone
combining accent, unmapped with an empty stripped decomposition, is
emitted verbatim. -/
theorem step_never_empty (D : UnicodeData) (ch : Char) :
    0 < (normalize_step D ch).length ∧
    0 < ((char_to_ascii D ch).getD [ch]).length ∧
    0 < (strip_fallback D ch).length ∧
    normalize_step pyDB '́' = ['́'] := by
  have hsf : 0 < (strip_fallback D ch).length := by
    unfold strip_fallback
    by_cases hg : (!(remove_combining D ch).isEmpty &&
        (remove_combining D ch).all (fun c => c.toNat < 128)) = true
    · rw [if_pos hg]
      have hg1 := (Eq.mp (Bool.and_eq_true _ _) hg).1
      rw [List.length_pos]
      exact List.isEmpty_eq_false.mp (by simpa using hg1)
    · rw [if_neg hg]
      simp
  have hca : 0 < ((char_to_ascii D ch).getD [ch]).length := by
    cases hc : char_to_ascii D ch with
    | none => simp
    | some r => simpa using (char_to_ascii_some_spec D ch r hc).1
  refine ⟨?_, hca, hsf, by decide⟩
  unfold normalize_step
  by_cases ha : ch.toNat < 128
  · rw [if_pos ha]
    simp
  · rw [if_neg ha]
    cases hc : char_to_ascii D ch with
    | none => exact hsf
    | some m =>
      have hm := (char_to_ascii_some_spec D ch m hc).1
      have hme : m.isEmpty = false := by
        rw [List.isEmpty_eq_false]
        rw [List.length_pos] at hm
        exact hm
      have hcond : (!m.isEmpty) = true := by rw [hme]; rfl
      show 0 < (if (!m.isEmpty) = true then m else strip_fallback D ch).length
      rw [if_pos hcond]
      exact hm

lemma char_to_ascii_none_guard (D : UnicodeData) (ch : Char)
    (h : char_to_ascii D ch = none) :
    (!(remove_combining D ch).isEmpty &&
      (remove_combining D ch).all (fun c => c.toNat < 128)) = false := by
  by_cases ha : ch.toNat < 128
  · unfold char_to_ascii at h
    rw [if_pos ha] at h
    cases h
  · unfold char_to_ascii at h
    rw [if_neg ha] at h
    by_cases hn : nfkc_single_ascii (D.nfkc ch) = true
    · rw [if_pos hn] at h
      cases h
    · rw [if_neg hn] at h
      by_cases hg : (!((D.nfkd ch).filter (fun c => D.category0 c != 'M')).isEmpty &&
          ((D.nfkd ch).filter (fun c => D.category0 c != 'M')).all
            (fun c => c.toNat < 128)) = true
      · rw [if_pos hg] at h
        cases h
      · rw [if_neg hg] at h
        exact Bool.not_eq_true _ ▸ hg

lemma strip_fallback_of_none (D : UnicodeData) (ch : Char)
    (h : char_to_ascii D ch = none) : strip_fallback D ch = [ch] := by
  have hg := char_to_ascii_none_guard D ch h
  unfold strip_fallback
  rw [if_neg (fun h2 => Bool.false_ne_true (hg.symm.trans h2))]

lemma step_eq_nofb (D : UnicodeData) (ch : Char) :
    normalize_step D ch = normalize_step_nofb D ch := by
  unfold normalize_step normalize_step_nofb
  by_cases ha : ch.toNat < 128
  · rw [if_pos ha, if_pos ha]
  · rw [if_neg ha, if_neg ha]
    cases hc : char_to_ascii D ch with
    | none =>
      show strip_fallback D ch = [ch]
      exact strip_fallback_of_none D ch hc
    | some m =>
      show (if (!m.isEmpty) = true then m else strip_fallback D ch) =
        (if (!m.isEmpty) = true then m else [ch])
      have hm := (char_to_ascii_some_spec D ch m hc).1
      have hcond : (!m.isEmpty) = true := by
        rw [List.isEmpty_eq_false.mpr (List.length_pos.mp hm)]
        rfl
      rw [if_pos hcond, if_pos hcond]

/-- C9: the standalone combining-mark-strip fallback branch is redundant:
whenever `char_to_ascii` is unmapped, `remove_combining` of the character
is empty or contains a non-ASCII character, so deleting the branch yields
an extensionally equal normalizer. -/
theorem strip_fallback_redundant (D : UnicodeData) (s : List Char) :
    normalize_channel_name_nofb D s = normalize_channel_name D s ∧
    ∀ ch : Char, (char_to_ascii D ch).isSome = true ∨ remove_combining D ch = [] ∨
      (remove_combining D ch).any (fun c => 128 ≤ c.toNat) = true := by
  constructor
  · have hfun : normalize_step_nofb D = normalize_step D :=
      funext (fun ch => (step_eq_nofb D ch).symm)
    unfold normalize_channel_name_nofb normalize_channel_name
    rw [hfun]
  · intro ch
    cases hc : char_to_ascii D ch with
    | some m => exact Or.inl rfl
    | none =>
      have hg := char_to_ascii_none_guard D ch hc
      by_cases he : (remove_combining D ch).isEmpty = true
      · exact Or.inr (Or.inl (List.isEmpty_iff.mp he))
      · have he3 : (remove_combining D ch).isEmpty = false := Bool.not_eq_true _ ▸ he
        have he2 : (!(remove_combining D ch).isEmpty) = true := by
          rw [he3]
          rfl
        have hall : (remove_combining D ch).all (fun c => c.toNat < 128) = false := by
          cases hb : (remove_combining D ch).all (fun c => c.toNat < 128) with
          | false => rfl
          | true =>
            have h3 : (!(remove_combining D ch).isEmpty &&
                (remove_combining D ch).all (fun c => c.toNat < 128)) = true := by
              rw [he2, hb]
              rfl
            exact absurd (hg.symm.trans h3) Bool.false_ne_true
        refine Or.inr (Or.inr ?_)
        rw [List.any_eq_true]
        obtain ⟨x, hx, hpx⟩ := List.all_eq_false.mp hall
        refine ⟨x, hx, ?_⟩
        simp at hpx ⊢
        omega
